import Mathlib

/-!
Shallow embedding of `sm/solver.py` (the exploded-graph solver of the
state-machine checker).  Python's mutable `StateVar` cells are modelled by a
memory `Mem` (a list of states, indexed by cell id, allocation appends);
`Shape._dict` is an association list from gcc expressions to cell ids.
Python `assert` failures and other uncaught exceptions are modelled by
`Option`/`Except` results (`none` = the call raises).
-/

namespace SmSolver

/-- Abstract state names (opaque identifiers declared by the rule file). -/
abbrev SmState := Nat

/-- gcc type of an expression; only pointer-ness matters to the solver
(`Context.is_stateful_var` tests `isinstance(gccexpr.type, gcc.PointerType)`). -/
inductive Ty where
  | pointer
  | scalar
deriving DecidableEq, Repr

/-- gcc expression trees, restricted to the cases `solver.py` inspects:
`gcc.VarDecl`, `gcc.ParmDecl` (the `VARTYPES` tuple), `gcc.SsaName` (with its
underlying decl and its type), `gcc.ComponentRef` (with its `target`), and a
catch-all for every other tree kind. -/
inductive GccExpr where
  | varDecl (id : Nat) (ty : Ty)
  | parmDecl (id : Nat) (ty : Ty)
  | ssaName (declId : Nat) (isParm : Bool) (ty : Ty)
  | componentRef (target : GccExpr) (fieldId : Nat)
  | otherTree (id : Nat)
deriving DecidableEq, Repr

/-- `isinstance(var, VARTYPES)` where `VARTYPES = (gcc.VarDecl, gcc.ParmDecl)`. -/
def GccExpr.isVarType : GccExpr → Bool
  | .varDecl _ _ => true
  | .parmDecl _ _ => true
  | _ => false

/-- The canonicalisation applied by `ShapeChange.assign_var`:
`if isinstance(v, gcc.SsaName): v = v.var` (an SSA name is replaced by its
underlying declaration); every other expression is passed through. -/
def GccExpr.canonSsa : GccExpr → GccExpr
  | .ssaName declId isParm ty =>
      if isParm then .parmDecl declId ty else .varDecl declId ty
  | e => e

/-- A numeric key for the total order used by `sorted(self._dict.keys())` in
`Shape.iter_aliases`.  Python 2 sorts distinct gcc wrapper objects in some
fixed arbitrary order; only the fact that sorting permutes the keys matters
to the claims, so any ranking function is a faithful model. -/
def GccExpr.enc : GccExpr → Nat
  | .varDecl id _ => 5 * id
  | .parmDecl id _ => 5 * id + 1
  | .ssaName declId _ _ => 5 * declId + 2
  | .componentRef t fieldId => 5 * (t.enc + fieldId) + 3
  | .otherTree id => 5 * id + 4

/-- Association-list lookup (Python `d[k]` / `k in d`), first binding wins. -/
def alookup {α : Type} [DecidableEq α] {β : Type} : List (α × β) → α → Option β
  | [], _ => none
  | p :: rest, k => if p.1 = k then some p.2 else alookup rest k

/-- Association-list store (Python `d[k] = v`): overwrite the existing binding
in place, else append a new one (dict insertion order). -/
def aset {α : Type} [DecidableEq α] {β : Type} : List (α × β) → α → β → List (α × β)
  | [], k, v => [(k, v)]
  | p :: rest, k, v => if p.1 = k then (k, v) :: rest else p :: aset rest k v

/-- The heap of `StateVar` instances: cell id `c` holds state `cells[c]`;
allocation (`StateVar(state)`) appends.  Cell ids play the role of Python
object identity (`id(statevar)` / `is`). -/
structure Mem where
  cells : List SmState
deriving DecidableEq, Repr

/-- Allocate a fresh `StateVar` holding `s`; returns the new memory and the
fresh cell id. -/
def Mem.alloc (m : Mem) (s : SmState) : Mem × Nat :=
  (⟨m.cells ++ [s]⟩, m.cells.length)

/-- Read a cell's `.state`.  `d` is only returned for a dangling id, which
well-formed shapes never contain. -/
def Mem.stateOf (m : Mem) (d : SmState) (c : Nat) : SmState :=
  m.cells.getD c d

/-- `Shape`: the dict mapping vars to `StateVar` instances (here: cell ids). -/
structure Shape where
  dict : List (GccExpr × Nat)
deriving DecidableEq, Repr

/-- All cell ids of a shape's dict are live in `m` (true for every shape the
solver builds, since cells come from `Mem.alloc`). -/
def Shape.WF (m : Mem) (sh : Shape) : Prop :=
  ∀ p ∈ sh.dict, p.2 < m.cells.length

instance (m : Mem) (sh : Shape) : Decidable (Shape.WF m sh) := by
  unfold Shape.WF; infer_instance

/-- `Shape.var_has_state`: `gccvar in self._dict`. -/
def Shape.var_has_state (sh : Shape) (gccvar : GccExpr) : Bool :=
  (alookup sh.dict gccvar).isSome

/-- `Shape.get_state`: asserts `isinstance(var, VARTYPES)` (`none` = the
assertion fires); returns the cell's state, or the context's default state
`d` when the var is absent. -/
def Shape.get_state (m : Mem) (d : SmState) (sh : Shape) (var : GccExpr) : Option SmState :=
  if var.isVarType then
    some (match alookup sh.dict var with
          | some c => m.stateOf d c
          | none => d)
  else none

/-- `Shape.set_state`: asserts `isinstance(var, VARTYPES)`; if `var` is
present, writes `state` into the existing `StateVar` (so aliases see the
change); else installs a fresh `StateVar`. -/
def Shape.set_state (m : Mem) (sh : Shape) (var : GccExpr) (state : SmState) :
    Option (Mem × Shape) :=
  if var.isVarType then
    match alookup sh.dict var with
    | some c => some (⟨m.cells.set c state⟩, sh)
    | none =>
        let p := m.alloc state
        some (p.1, ⟨sh.dict ++ [(var, p.2)]⟩)
  else none

/-- Insertion step of the model of Python's `sorted`. -/
def insertSorted {α : Type} (le : α → α → Bool) (x : α) : List α → List α
  | [] => [x]
  | y :: rest => if le x y then x :: y :: rest else y :: insertSorted le x rest

/-- `sorted(...)`: insertion sort (any sorting of the keys is a faithful
model; the claims depend only on it permuting its input). -/
def sortList {α : Type} (le : α → α → Bool) : List α → List α
  | [] => []
  | x :: rest => insertSorted le x (sortList le rest)

/-- `Shape.iter_aliases`: every var (in sorted key order) whose dict entry
`is` the given `StateVar` (identity, i.e. the same cell id). -/
def Shape.iter_aliases (sh : Shape) (statevar : Nat) : List GccExpr :=
  (sortList (fun a b => a.enc ≤ b.enc) (sh.dict.map (·.1))).filter
    (fun gccvar => decide (alookup sh.dict gccvar = some statevar))

/-- `Shape._assign_var`: if `srcvar` is absent, first `set_state(srcvar,
default)` (which asserts `srcvar`'s kind); then `self._dict[dstvar] =
self._dict[srcvar]` (a plain dict write, no assertion on `dstvar`). -/
def Shape.assign_var_core (m : Mem) (d : SmState) (sh : Shape)
    (dstvar srcvar : GccExpr) : Option (Mem × Shape) :=
  let step : Option (Mem × Shape) :=
    match alookup sh.dict srcvar with
    | some _ => some (m, sh)
    | none => Shape.set_state m sh srcvar d
  match step with
  | none => none
  | some q =>
      match alookup q.2.dict srcvar with
      | some c => some (q.1, ⟨aset q.2.dict dstvar c⟩)
      | none => none

/-- The IR provider's view of a function: `fun.local_decls` and
`fun.decl.arguments`. -/
structure GccFun where
  local_decls : List GccExpr
  arguments : List GccExpr
deriving DecidableEq, Repr

/-- `Shape._purge_locals`: delete every dict key that occurs in
`fun.local_decls + fun.decl.arguments`. -/
def Shape.purge_locals (sh : Shape) (f : GccFun) : Shape :=
  ⟨sh.dict.filter (fun p => !(decide (p.1 ∈ f.local_decls ++ f.arguments)))⟩

/-- Pass 1 of `Shape._copy`: walk `self._dict.values()` and store
`shapevars[id(sv)] = sv.copy()`; a cell aliased by several vars is copied
once per occurrence, the mapping keeping the latest copy. -/
def copyCells (d : SmState) : Mem → List Nat → List (Nat × Nat) → Mem × List (Nat × Nat)
  | m, [], acc => (m, acc)
  | m, c :: rest, acc =>
      let p := m.alloc (m.stateOf d c)
      copyCells d p.1 rest (aset acc c p.2)

/-- `Shape._copy`: clone every `StateVar` (pass 1), then rebuild the dict
through the `old cell ↦ new cell` mapping (pass 2), preserving aliasing
within the clone while decoupling it from the original.  Returns
`(new memory, clone, shapevars)`.  Pass 2's `getD 0` models the Python
`shapevars[id(shapevar)]` lookup, which never fails because pass 1 covers
every value of the dict. -/
def Shape.copy (m : Mem) (d : SmState) (sh : Shape) :
    Mem × Shape × List (Nat × Nat) :=
  let q := copyCells d m (sh.dict.map (·.2)) []
  (q.1, ⟨sh.dict.map (fun p => (p.1, (alookup q.2 p.2).getD 0))⟩, q.2)

/-- Python `==` on Shapes: `self._dict == other._dict`, where the values are
`StateVar`s compared by `StateVar.__eq__`, i.e. by their current state (cell
identity is not consulted). -/
def Shape.beq (m : Mem) (d : SmState) (a b : Shape) : Bool :=
  a.dict.length == b.dict.length &&
  a.dict.all (fun p =>
    match alookup b.dict p.1 with
    | some c => m.stateOf d p.2 == m.stateOf d c
    | none => false)

/-- `Shape.__hash__`: `result = 0; for k, v in dict: result ^= hash(k);
result ^= hash(v)` where `hash(v) = hash(v.state)`.  `hV`/`hS` are the
ambient hash functions on gcc objects and states. -/
def Shape.hashv (m : Mem) (d : SmState) (hV : GccExpr → Nat) (hS : SmState → Nat)
    (sh : Shape) : Nat :=
  sh.dict.foldl (fun r p => (r ^^^ hV p.1) ^^^ hS (m.stateOf d p.2)) 0

/-- `ShapeChange`: the original shape, its clone (the destination, the only
one mutated), and the `old cell id ↦ new cell` mapping built by `_copy`. -/
structure ShapeChange where
  srcshape : Shape
  dstshape : Shape
  shapevars : List (Nat × Nat)
deriving DecidableEq, Repr

/-- `ShapeChange.__init__`: `self.dstshape, self._shapevars = srcshape._copy()`. -/
def ShapeChange.mk_change (m : Mem) (d : SmState) (srcshape : Shape) :
    Mem × ShapeChange :=
  let q := Shape.copy m d srcshape
  (q.1, ⟨srcshape, q.2.1, q.2.2⟩)

/-- `ShapeChange.assign_var`: canonicalise SSA names on both sides, then
`self.dstshape._assign_var(dstvar, srcvar)`. -/
def ShapeChange.assign_var (m : Mem) (d : SmState) (sc : ShapeChange)
    (dstvar srcvar : GccExpr) : Option (Mem × ShapeChange) :=
  match Shape.assign_var_core m d sc.dstshape dstvar.canonSsa srcvar.canonSsa with
  | some q => some (q.1, ⟨sc.srcshape, q.2, sc.shapevars⟩)
  | none => none

/-- `ShapeChange.purge_locals`: `self.dstshape._purge_locals(fun)`. -/
def ShapeChange.purge_locals (sc : ShapeChange) (f : GccFun) : ShapeChange :=
  ⟨sc.srcshape, sc.dstshape.purge_locals f, sc.shapevars⟩

/-- The loop body of `ShapeChange.iter_leaks` over the remaining source
values.  `self._shapevars[id(srcshapevar)]` raising `KeyError` is modelled by
`none`; `dstshapevar not in dstshapevars` is Python list membership, which
compares with `StateVar.__eq__`, i.e. by state. -/
def iterLeaksAux (m : Mem) (d : SmState) (sc : ShapeChange) (dstshapevars : List Nat) :
    List Nat → Option (List GccExpr)
  | [] => some []
  | c :: rest =>
      match alookup sc.shapevars c with
      | none => none
      | some c2 =>
          (iterLeaksAux m d sc dstshapevars rest).map (fun tail =>
            (if dstshapevars.any (fun e => m.stateOf d e == m.stateOf d c2) then []
             else sc.srcshape.iter_aliases c) ++ tail)

/-- `ShapeChange.iter_leaks`: for each `srcshapevar` in
`self.srcshape._dict.values()`, if its clone is not `in`
`self.dstshape._dict.values()` (state-equality membership), yield every
source alias of `srcshapevar`. -/
def ShapeChange.iter_leaks (m : Mem) (d : SmState) (sc : ShapeChange) :
    Option (List GccExpr) :=
  iterLeaksAux m d sc (sc.dstshape.dict.map (·.2)) (sc.srcshape.dict.map (·.2))

/-!
The worklist of `make_exploded_graph` / `ExplodedGraph.lazily_add_node`,
abstracted over the key type `κ` (instantiated with an
`(inner node, structural shape)` pair).  `_nodedict` keys and the pending
worklist are lists; interning appends to both exactly when the key is new.
-/

/-- The interning table plus the pending worklist of `ExplodedGraph`. -/
structure WorkState (κ : Type) where
  nodedict : List κ
  worklist : List κ
deriving Repr

/-- `ExplodedGraph.lazily_add_node`: if the `(innernode, shape)` key is not in
`self._nodedict`, add a node and append it to the worklist. -/
def lazily_add_node {κ : Type} [DecidableEq κ] (st : WorkState κ) (k : κ) :
    WorkState κ :=
  if k ∈ st.nodedict then st
  else ⟨st.nodedict ++ [k], st.worklist ++ [k]⟩

/-- One iteration of the `while expgraph.worklist:` loop: pop the last
pending node (`list.pop()`), compute the successor keys its outgoing edges
and rule outcomes produce (abstracted by `succs`), and lazily intern each. -/
def worklist_step {κ : Type} [DecidableEq κ] (succs : κ → List κ) (st : WorkState κ) :
    WorkState κ :=
  match st.worklist.getLast? with
  | none => st
  | some k => (succs k).foldl lazily_add_node ⟨st.nodedict, st.worklist.dropLast⟩

/-- Run `n` iterations of the worklist loop. -/
def worklist_run {κ : Type} [DecidableEq κ] (succs : κ → List κ) :
    Nat → WorkState κ → WorkState κ
  | 0, st => st
  | n + 1, st => worklist_run succs n (worklist_step succs st)

/-!
`Context.__init__`: the rule-file clause list (the parts of `sm.checker` the
solver consults) and the unreachable-state validation.
-/

/-- An outcome of a pattern rule; `iter_reachable_states()` enumerates the
states it can produce. -/
structure Outcome where
  reachable : List SmState
deriving DecidableEq, Repr

/-- A pattern rule: a pattern (opaque here) with its outcomes. -/
structure PatternRule where
  outcomes : List Outcome
deriving DecidableEq, Repr

/-- A `StateClause`: the guarding state list and the pattern rules. -/
structure StateClauseData where
  statelist : List SmState
  patternrulelist : List PatternRule
deriving DecidableEq, Repr

/-- The four clause kinds `Context.__init__` dispatches on. -/
inductive Clause where
  | decl (name : Nat) (has_state : Bool)
  | namedPattern (name : Nat)
  | stateClause (sc : StateClauseData)
  | pythonFragment (id : Nat)
deriving DecidableEq, Repr

/-- The states added to `reachable_states` by the first pass: every state of
every outcome of every pattern rule of every `StateClause`. -/
def collectReachable (clauses : List Clause) : List SmState :=
  clauses.flatMap (fun c =>
    match c with
    | .stateClause sc =>
        sc.patternrulelist.flatMap (fun pr => pr.outcomes.flatMap (·.reachable))
    | _ => [])

/-- How `Context.__init__` can fail. -/
inductive CtxtError where
  | indexError
  | unreachableState (s : SmState)
deriving DecidableEq, Repr

/-- `Context.__init__` restricted to what decides validation: seed
`reachable_states` with `statenames[0]` (`IndexError` when there are no
states), extend it over all outcomes, then raise `UnreachableState` at the
first `StateClause` guard state outside the set. -/
def context_init (statenames : List SmState) (clauses : List Clause) :
    Except CtxtError Unit :=
  match statenames with
  | [] => .error .indexError
  | s0 :: _ =>
      let reachable := s0 :: collectReachable clauses
      match clauses.findSome? (fun c =>
        match c with
        | .stateClause sc => sc.statelist.find? (fun st => !(decide (st ∈ reachable)))
        | _ => none) with
      | some st => .error (.unreachableState st)
      | none => .ok ()

/-- `Context.is_stateful_var`: `True` for a pointer-typed `gcc.SsaName`,
(implicitly) `None` for everything else. -/
def is_stateful_var : GccExpr → Option Bool
  | .ssaName _ _ ty =>
      if ty = .pointer then some true else none
  | _ => none

/-!
The per-edge body of `make_exploded_graph` (lines 359-492): interprocedural
edges, the handled assignment forms, phi, and the fallthrough to rule
matching with the neutral successor.
-/

/-- The statement kinds `make_exploded_graph` dispatches on
(`srcnode.get_stmt()` may also be `None`, modelled as `Option Stmt`).
`gcc.GimpleAssign` carries `stmt.lhs` and `stmt.rhs[0]`; `stmt.exprcode` is
the tree code of the rhs.  `gcc.GimpleCall` carries `fndecl.arguments`,
`args` and the optional lhs. -/
inductive Stmt where
  | gimpleAssign (lhs : GccExpr) (rhs0 : GccExpr)
  | gimplePhi (lhs : GccExpr)
  | gimpleCall (fndeclArguments : List GccExpr) (args : List GccExpr) (lhs : Option GccExpr)
  | gimpleReturn (retval : Option GccExpr)
  | otherStmt (id : Nat)
deriving DecidableEq, Repr

/-- `stmt.exprcode == gcc.VarDecl` (the exprcode is the rhs tree's code). -/
def exprcodeIsVarDecl : GccExpr → Bool
  | .varDecl _ _ => true
  | _ => false

/-- `stmt.exprcode == gcc.ComponentRef`. -/
def exprcodeIsComponentRef : GccExpr → Bool
  | .componentRef _ _ => true
  | _ => false

/-- The edge kinds `make_exploded_graph` dispatches on.  An
`ExitToReturnSite` edge exposes the calling statement's lhs, the callee's
return value (from the `gcc.GimpleReturn` behind the exit node) and the
callee function whose locals get purged. -/
inductive InnerEdgeKind where
  | callToReturnSite
  | callToStart
  | exitToReturnSite (callingLhs : Option GccExpr) (retval : Option GccExpr) (calleeFun : GccFun)
  | intra
deriving DecidableEq, Repr

/-- What processing one outgoing edge of a popped node does. -/
inductive TransferResult where
  /-- `continue` without interning anything (intraprocedural call edge). -/
  | skipEdge
  /-- intern `(dstnode, dstShape)` and an edge with no match and the given
  shape-change (`none` on the neutral fallthrough). -/
  | emitEdge (m : Mem) (dstShape : Shape) (change : Option ShapeChange)
  /-- at least one pattern rule fired; its outcomes intern the successors. -/
  | ruleFired
  /-- an `assert` failed or an exception escaped. -/
  | abort
deriving DecidableEq, Repr

/-- Fold `shapechange.assign_var(param, arg)` over the stateful
parameter/argument pairs of a call edge. -/
def applyAssigns (m : Mem) (d : SmState) (sc : ShapeChange) :
    List (GccExpr × GccExpr) → Option (Mem × ShapeChange)
  | [] => some (m, sc)
  | q :: rest =>
      match ShapeChange.assign_var m d sc q.1 q.2 with
      | some r => applyAssigns r.1 d r.2 rest
      | none => none

/-- Truthiness of `ctxt.is_stateful_var(e)` (`True` or `None`). -/
def statefulTruthy (e : GccExpr) : Bool :=
  (is_stateful_var e).isSome

/-- The body of `make_exploded_graph`'s edge loop for one edge, given the
popped node's statement, the edge kind, the `SplitPhiNode` rhs when the
inner node is one, and whether the rule-matching loop appended any match
(`hasMatches`; with `stmt` equal to `None` the matching loop is skipped, so
no match can fire). -/
def process_edge (d : SmState) (m : Mem) (srcshape : Shape) (stmt : Option Stmt)
    (edge : InnerEdgeKind) (splitPhiRhs : Option GccExpr) (hasMatches : Bool) :
    TransferResult :=
  let fallthroughMatch : TransferResult :=
    match stmt with
    | none => .emitEdge m srcshape none
    | some _ => if hasMatches then .ruleFired else .emitEdge m srcshape none
  match edge with
  | .callToReturnSite => .skipEdge
  | .callToStart =>
      match stmt with
      | some (.gimpleCall fndeclArguments args _) =>
          let p := ShapeChange.mk_change m d srcshape
          match applyAssigns p.1 d p.2
              ((fndeclArguments.zip args).filter (fun q => statefulTruthy q.2)) with
          | some q => .emitEdge q.1 q.2.dstshape (some q.2)
          | none => .abort
      | _ => .abort
  | .exitToReturnSite callingLhs retval calleeFun =>
      let p := ShapeChange.mk_change m d srcshape
      let step : Option (Mem × ShapeChange) :=
        match callingLhs with
        | some lhs =>
            match retval with
            | some rv =>
                if statefulTruthy rv then ShapeChange.assign_var p.1 d p.2 lhs rv
                else some p
            | none => some p
        | none => some p
      match step with
      | some q =>
          let q2 := q.2.purge_locals calleeFun
          .emitEdge q.1 q2.dstshape (some q2)
      | none => .abort
  | .intra =>
      match stmt with
      | some (.gimpleAssign lhs rhs0) =>
          if exprcodeIsVarDecl rhs0 then
            let p := ShapeChange.mk_change m d srcshape
            match ShapeChange.assign_var p.1 d p.2 lhs rhs0 with
            | some q => .emitEdge q.1 q.2.dstshape (some q.2)
            | none => .abort
          else if exprcodeIsComponentRef rhs0 then
            match rhs0 with
            | .componentRef target _ =>
                if srcshape.var_has_state target then
                  let p := ShapeChange.mk_change m d srcshape
                  match ShapeChange.assign_var p.1 d p.2 lhs target with
                  | some q => .emitEdge q.1 q.2.dstshape (some q.2)
                  | none => .abort
                else fallthroughMatch
            | _ => .abort
          else fallthroughMatch
      | some (.gimplePhi lhs) =>
          match splitPhiRhs with
          | some rhs =>
              let p := ShapeChange.mk_change m d srcshape
              match ShapeChange.assign_var p.1 d p.2 lhs rhs with
              | some q => .emitEdge q.1 q.2.dstshape (some q.2)
              | none => .abort
          | none => .abort
      | _ => fallthroughMatch

/-!
`Error.emit` and `ExplodedGraph.get_shortest_path_to` (lines 244-254 and
517-558).
-/

/-- An `sm.checker.Match` as the reporter consumes it:
`get_stateful_gccvar(ctxt)` (the bound underlying variable) and
`description(ctxt)`. -/
structure SMatch where
  statefulVar : GccExpr
  descr : String
deriving DecidableEq, Repr

/-- An exploded node as the reporter reads it: `innernode.get_gcc_loc()`
(may be `None`) and the node's shape. -/
structure ExpNodeR where
  loc : Option Nat
  shape : Shape
deriving DecidableEq, Repr

/-- An exploded edge as the reporter reads it. -/
structure ExpEdgeR where
  srcnode : ExpNodeR
  dstnode : ExpNodeR
  ematch : Option SMatch
deriving DecidableEq, Repr

/-- A call to the diagnostic sink: `error(loc, msg)` or `inform(loc, msg)`. -/
inductive Event where
  | errorEv (loc : Nat) (msg : String)
  | informEv (loc : Nat) (msg : String)
deriving DecidableEq, Repr

/-- A stored `Error`: the offending exploded node, the match, the message,
and `self.function.end` (the fallback location when the node has none). -/
structure ErrorR where
  expnode : ExpNodeR
  ematch : SMatch
  msg : String
  functionEnd : Nat
deriving DecidableEq, Repr

/-- `Error.gccloc`: the inner node's location, falling back to the enclosing
function's end. -/
def ErrorR.gccloc (err : ErrorR) : Nat :=
  err.expnode.loc.getD err.functionEnd

/-- `ExplodedGraph.get_shortest_path_to`: try `get_shortest_path` (the
`gccutils.graph` BFS, abstracted as `gsp`) from each entrypoint; keep the
first non-empty path found, replacing it only by a strictly shorter one
(`if path:` discards both `None` and an empty path). -/
def get_shortest_path_to (gsp : ExpNodeR → ExpNodeR → Option (List ExpEdgeR))
    (entrypoints : List ExpNodeR) (dstexpnode : ExpNodeR) : Option (List ExpEdgeR) :=
  entrypoints.foldl (fun result src =>
    match gsp src dstexpnode with
    | some path =>
        if path.isEmpty then result
        else
          match result with
          | some r => if path.length < r.length then some path else result
          | none => some path
    | none => result) none

/-- The `for expedge in path:` loop of `Error.emit`: for each edge fetch the
source and destination state of the stateful variable (`Shape.get_state`
asserts the variable's kind; `none` propagates the failure); when they
differ and the source node has a location, emit the edge's
`match.description()` as a note, or silently `continue` when the edge has no
match. -/
def emitNotes (m : Mem) (d : SmState) (statefulVar : GccExpr) :
    List ExpEdgeR → Option (List Event)
  | [] => some []
  | e :: rest =>
      match Shape.get_state m d e.srcnode.shape statefulVar,
            Shape.get_state m d e.dstnode.shape statefulVar with
      | some srcstate, some dststate =>
          (emitNotes m d statefulVar rest).map (fun tail =>
            (if srcstate ≠ dststate then
               match e.srcnode.loc with
               | some gccloc =>
                   match e.ematch with
                   | some sm => [Event.informEv gccloc sm.descr]
                   | none => []
               | none => []
             else []) ++ tail)
      | _, _ => none

/-- `Error.emit`: the primary diagnostic at `self.gccloc`, then the notes
along the shortest witness path (`none` when `get_shortest_path_to` yields
no path, in which case the `for` loop raises), and — when the path is longer
than one edge and the final node has a location — the message repeated
there. -/
def ErrorR.emit (m : Mem) (d : SmState)
    (gsp : ExpNodeR → ExpNodeR → Option (List ExpEdgeR))
    (entrypoints : List ExpNodeR) (err : ErrorR) : Option (List Event) :=
  match get_shortest_path_to gsp entrypoints err.expnode with
  | none => none
  | some path =>
      match emitNotes m d err.ematch.statefulVar path with
      | none => none
      | some notes =>
          let tail : List Event :=
            if path.length > 1 then
              match path.getLast? with
              | some lastEdge =>
                  match lastEdge.dstnode.loc with
                  | some gccloc => [Event.informEv gccloc err.msg]
                  | none => []
              | none => []
            else []
          some (Event.errorEv err.gccloc err.msg :: (notes ++ tail))

/-- The state of variable `v` under shape `sh` (the value `get_state`
returns once its kind assertion has passed): the cell's state when `v` is in
the map, the default state `d` otherwise. -/
def stateAtKey (m : Mem) (d : SmState) (sh : Shape) (v : GccExpr) : SmState :=
  match alookup sh.dict v with
  | some c => m.stateOf d c
  | none => d

/-- The `(variable, state)` pairs of a shape, in dict order. -/
def entriesOf (m : Mem) (d : SmState) (sh : Shape) : List (GccExpr × SmState) :=
  sh.dict.map (fun p => (p.1, m.stateOf d p.2))

/-!  Association-list lemmas. -/

section ALists

variable {α β γ : Type} [DecidableEq α]

theorem alookup_mem {l : List (α × β)} {k : α} {v : β}
    (h : alookup l k = some v) : (k, v) ∈ l := by
  induction l with
  | nil => simp [alookup] at h
  | cons p rest ih =>
      by_cases hk : p.1 = k
      · simp only [alookup, if_pos hk] at h
        obtain ⟨a, b⟩ := p
        obtain rfl : b = v := by simpa using h
        obtain rfl : a = k := hk
        exact List.mem_cons_self _ _
      · simp only [alookup, if_neg hk] at h
        exact List.mem_cons_of_mem _ (ih h)

theorem mem_keys_of_alookup {l : List (α × β)} {k : α} {v : β}
    (h : alookup l k = some v) : k ∈ l.map Prod.fst := by
  exact List.mem_map.mpr ⟨(k, v), alookup_mem h, rfl⟩

theorem alookup_isSome_of_mem_keys {l : List (α × β)} {k : α}
    (h : k ∈ l.map Prod.fst) : (alookup l k).isSome = true := by
  induction l with
  | nil => simp at h
  | cons p rest ih =>
      by_cases hk : p.1 = k
      · simp [alookup, hk]
      · simp only [List.map_cons, List.mem_cons] at h
        rcases h with h | h
        · exact absurd h.symm hk
        · simpa [alookup, hk] using ih h

theorem alookup_eq_none_iff {l : List (α × β)} {k : α} :
    alookup l k = none ↔ k ∉ l.map Prod.fst := by
  constructor
  · intro h hk
    have := alookup_isSome_of_mem_keys (l := l) hk
    rw [h] at this
    simp at this
  · intro hk
    cases he : alookup l k with
    | none => rfl
    | some v => exact absurd (mem_keys_of_alookup he) hk

theorem alookup_eq_some_of_mem_of_nodup {l : List (α × β)} {k : α} {v : β}
    (hnd : (l.map Prod.fst).Nodup) (hm : (k, v) ∈ l) : alookup l k = some v := by
  induction l with
  | nil => simp at hm
  | cons p rest ih =>
      simp only [List.map_cons, List.nodup_cons] at hnd
      rcases List.mem_cons.mp hm with h | h
      · subst h
        simp [alookup]
      · have hk : p.1 ≠ k := by
          intro he
          exact hnd.1 (he ▸ List.mem_map.mpr ⟨(k, v), h, rfl⟩)
        simp only [alookup, if_neg hk]
        exact ih hnd.2 h

theorem alookup_append {l1 l2 : List (α × β)} {k : α} :
    alookup (l1 ++ l2) k =
      match alookup l1 k with
      | some v => some v
      | none => alookup l2 k := by
  induction l1 with
  | nil => simp [alookup]
  | cons p rest ih =>
      by_cases hk : p.1 = k
      · simp [alookup, hk]
      · simp [alookup, hk, ih]

theorem alookup_map_value {l : List (α × β)} {k : α} (F : β → γ) :
    alookup (l.map (fun p => (p.1, F p.2))) k = (alookup l k).map F := by
  induction l with
  | nil => simp [alookup]
  | cons p rest ih =>
      by_cases hk : p.1 = k
      · simp [alookup, hk]
      · simp [alookup, hk, ih]

theorem alookup_aset_self {l : List (α × β)} {k : α} {v : β} :
    alookup (aset l k v) k = some v := by
  induction l with
  | nil => simp [aset, alookup]
  | cons p rest ih =>
      by_cases hk : p.1 = k
      · simp [aset, hk, alookup]
      · simp [aset, hk, alookup, ih]

theorem alookup_aset_ne {l : List (α × β)} {k k2 : α} {v : β} (h : k2 ≠ k) :
    alookup (aset l k v) k2 = alookup l k2 := by
  have hne : k ≠ k2 := fun he => h he.symm
  induction l with
  | nil => simp [aset, alookup, hne]
  | cons p rest ih =>
      by_cases hk : p.1 = k
      · subst hk
        simp [aset, alookup, hne]
      · by_cases hk2 : p.1 = k2
        · simp [aset, hk, alookup, hk2, h]
        · simp [aset, hk, alookup, hk2, ih]

theorem mem_aset {l : List (α × β)} {k : α} {v : β} {p : α × β}
    (h : p ∈ aset l k v) : p = (k, v) ∨ p ∈ l := by
  induction l with
  | nil => simpa [aset] using h
  | cons q rest ih =>
      by_cases hk : q.1 = k
      · simp only [aset, if_pos hk] at h
        rcases List.mem_cons.mp h with h | h
        · exact Or.inl h
        · exact Or.inr (List.mem_cons_of_mem _ h)
      · simp only [aset, if_neg hk] at h
        rcases List.mem_cons.mp h with h | h
        · exact Or.inr (h ▸ List.mem_cons_self _ _)
        · rcases ih h with h | h
          · exact Or.inl h
          · exact Or.inr (List.mem_cons_of_mem _ h)

theorem keys_aset_nodup {l : List (α × β)} {k : α} {v : β}
    (hnd : (l.map Prod.fst).Nodup) : ((aset l k v).map Prod.fst).Nodup := by
  induction l with
  | nil => simp [aset]
  | cons q rest ih =>
      simp only [List.map_cons, List.nodup_cons] at hnd
      by_cases hk : q.1 = k
      · subst hk
        simpa [aset] using hnd
      · simp only [aset, if_neg hk, List.map_cons, List.nodup_cons]
        refine ⟨fun hmem => ?_, ih hnd.2⟩
        rcases List.mem_map.mp hmem with ⟨p, hp, hfst⟩
        rcases mem_aset hp with h | h
        · exact hk (by rw [← hfst, h])
        · exact hnd.1 (hfst ▸ List.mem_map.mpr ⟨p, h, rfl⟩)

end ALists

/-- C9: `is_stateful_var` yields a truthy value (`True`) exactly on
pointer-typed SSA names; on every other expression — pointer-typed
`VarDecl`/`ParmDecl` and non-pointer SSA names included — it falls through
and returns `None`. -/
theorem is_stateful_var_ssa_pointer_only (e : GccExpr) :
    (is_stateful_var e = some true ∨ is_stateful_var e = none) ∧
    (is_stateful_var e = some true ↔
      ∃ declId isParm, e = GccExpr.ssaName declId isParm Ty.pointer) := by
  cases e with
  | ssaName declId isParm ty =>
      cases ty <;> simp [is_stateful_var]
  | varDecl id ty => simp [is_stateful_var]
  | parmDecl id ty => simp [is_stateful_var]
  | componentRef t f => simp [is_stateful_var]
  | otherTree id => simp [is_stateful_var]

theorem canonSsa_isVarType {e : GccExpr}
    (h : e.isVarType = true ∨ ∃ i p t, e = GccExpr.ssaName i p t) :
    e.canonSsa.isVarType = true := by
  rcases h with h | ⟨i, p, t, rfl⟩
  · cases e <;> simp_all [GccExpr.isVarType, GccExpr.canonSsa]
  · cases p <;> simp [GccExpr.canonSsa, GccExpr.isVarType]

theorem assign_var_core_isSome (m : Mem) (d : SmState) (sh : Shape)
    (dstvar srcvar : GccExpr) (hv : srcvar.isVarType = true) :
    (Shape.assign_var_core m d sh dstvar srcvar).isSome = true := by
  unfold Shape.assign_var_core
  cases hl : alookup sh.dict srcvar with
  | some c => simp [hl]
  | none =>
      simp only [hl, Shape.set_state, hv, if_true]
      have : alookup (sh.dict ++ [(srcvar, m.cells.length)]) srcvar =
          some m.cells.length := by
        rw [alookup_append, hl]
        simp [alookup]
      simp [Mem.alloc, this]

/-- C10: `Shape.get_state` and `Shape.set_state` assert
`isinstance(var, VARTYPES)` and raise `AssertionError` on anything else (an
un-canonicalised SSA name included); `ShapeChange.assign_var` replaces an
SSA-name argument by its underlying declaration before touching the
destination shape, so through `assign_var` (with declaration or SSA-name
arguments) the assertion never fires. -/
theorem assign_var_canonicalises (m : Mem) (d s : SmState) (sh : Shape)
    (sc : ShapeChange) (v dstvar srcvar : GccExpr)
    (hsrc : srcvar.isVarType = true ∨ ∃ i p t, srcvar = GccExpr.ssaName i p t) :
    (Shape.get_state m d sh v = none ↔ v.isVarType = false) ∧
    (Shape.set_state m sh v s = none ↔ v.isVarType = false) ∧
    (ShapeChange.assign_var m d sc dstvar srcvar).isSome = true := by
  refine ⟨?_, ?_, ?_⟩
  · by_cases hv : v.isVarType = true
    · simp [Shape.get_state, hv]
    · simp only [Bool.not_eq_true] at hv
      simp [Shape.get_state, hv]
  · by_cases hv : v.isVarType = true
    · cases hl : alookup sh.dict v <;> simp [Shape.set_state, hv, hl]
    · simp only [Bool.not_eq_true] at hv
      simp [Shape.set_state, hv]
  · have hcanon := canonSsa_isVarType hsrc
    unfold ShapeChange.assign_var
    have := assign_var_core_isSome m d sc.dstshape dstvar.canonSsa srcvar.canonSsa hcanon
    cases hres : Shape.assign_var_core m d sc.dstshape dstvar.canonSsa srcvar.canonSsa with
    | some q => simp [hres]
    | none => rw [hres] at this; simp at this

/-- Witness for C10 at concrete inputs. -/
theorem assign_var_canonicalises_witness :
    (Shape.get_state ⟨[5]⟩ 0 ⟨[]⟩ (GccExpr.ssaName 3 false Ty.pointer) = none ↔
      (GccExpr.ssaName 3 false Ty.pointer).isVarType = false) ∧
    (Shape.set_state ⟨[5]⟩ ⟨[]⟩ (GccExpr.ssaName 3 false Ty.pointer) 1 = none ↔
      (GccExpr.ssaName 3 false Ty.pointer).isVarType = false) ∧
    (ShapeChange.assign_var ⟨[5]⟩ 0 ⟨⟨[]⟩, ⟨[]⟩, []⟩
      (GccExpr.varDecl 1 Ty.scalar) (GccExpr.ssaName 3 false Ty.pointer)).isSome = true :=
  assign_var_canonicalises ⟨[5]⟩ 0 1 ⟨[]⟩ ⟨⟨[]⟩, ⟨[]⟩, []⟩
    (GccExpr.ssaName 3 false Ty.pointer) (GccExpr.varDecl 1 Ty.scalar)
    (GccExpr.ssaName 3 false Ty.pointer) (Or.inr ⟨3, false, Ty.pointer, rfl⟩)

/-- C8: `set_state(v, s)` on a present `v` writes into the shared cell, so
every variable aliasing that cell reads `s` afterwards; on an absent `v` it
installs a fresh cell holding `s` and leaves every other variable's state
untouched. -/
theorem set_state_through_aliases (m : Mem) (d s : SmState) (sh : Shape)
    (v w : GccExpr) (hwf : Shape.WF m sh)
    (hv : v.isVarType = true) (hw : w.isVarType = true) :
    (∀ c, alookup sh.dict v = some c →
      ∃ m2, Shape.set_state m sh v s = some (m2, sh) ∧
        (alookup sh.dict w = some c → Shape.get_state m2 d sh w = some s)) ∧
    (alookup sh.dict v = none →
      ∃ m2 sh2, Shape.set_state m sh v s = some (m2, sh2) ∧
        Shape.get_state m2 d sh2 v = some s ∧
        (w ≠ v → Shape.get_state m2 d sh2 w = Shape.get_state m d sh w)) := by
  constructor
  · intro c hc
    refine ⟨⟨m.cells.set c s⟩, by simp [Shape.set_state, hv, hc], ?_⟩
    intro hwc
    have hlt : c < m.cells.length := hwf (v, c) (alookup_mem hc)
    simp only [Shape.get_state, hw, if_true, hwc, Mem.stateOf, Option.some.injEq]
    rw [List.getD_eq_getElem?_getD, List.getElem?_set_self hlt]
    rfl
  · intro hnone
    refine ⟨⟨m.cells ++ [s]⟩, ⟨sh.dict ++ [(v, m.cells.length)]⟩,
      by simp [Shape.set_state, hv, hnone, Mem.alloc], ?_, ?_⟩
    · have hl : alookup (sh.dict ++ [(v, m.cells.length)]) v = some m.cells.length := by
        rw [alookup_append, hnone]
        simp [alookup]
      simp only [Shape.get_state, hv, if_true, hl, Mem.stateOf, Option.some.injEq]
      rw [List.getD_eq_getElem?_getD, List.getElem?_concat_length]
      rfl
    · intro hwv
      have hvw : ¬ v = w := fun he => hwv he.symm
      cases hlw : alookup sh.dict w with
      | some cw =>
          have hl2 : alookup (sh.dict ++ [(v, m.cells.length)]) w = some cw := by
            rw [alookup_append, hlw]
          have hlt : cw < m.cells.length := hwf (w, cw) (alookup_mem hlw)
          simp only [Shape.get_state, hw, if_true, hl2, hlw, Mem.stateOf]
          rw [List.getD_append _ _ _ _ hlt]
      | none =>
          have hl2 : alookup (sh.dict ++ [(v, m.cells.length)]) w = none := by
            rw [alookup_append, hlw]
            simp [alookup, hvw]
          simp [Shape.get_state, hw, hl2, hlw]

/-- Witness for C8 at concrete inputs: `x` and `y` alias cell `0`. -/
theorem set_state_through_aliases_witness :
    (∀ c, alookup (Shape.dict ⟨[(GccExpr.varDecl 1 Ty.scalar, 0), (GccExpr.varDecl 2 Ty.scalar, 0)]⟩)
        (GccExpr.varDecl 1 Ty.scalar) = some c →
      ∃ m2, Shape.set_state ⟨[7]⟩ ⟨[(GccExpr.varDecl 1 Ty.scalar, 0), (GccExpr.varDecl 2 Ty.scalar, 0)]⟩
          (GccExpr.varDecl 1 Ty.scalar) 9 = some (m2, ⟨[(GccExpr.varDecl 1 Ty.scalar, 0), (GccExpr.varDecl 2 Ty.scalar, 0)]⟩) ∧
        (alookup (Shape.dict ⟨[(GccExpr.varDecl 1 Ty.scalar, 0), (GccExpr.varDecl 2 Ty.scalar, 0)]⟩)
            (GccExpr.varDecl 2 Ty.scalar) = some c →
          Shape.get_state m2 0 ⟨[(GccExpr.varDecl 1 Ty.scalar, 0), (GccExpr.varDecl 2 Ty.scalar, 0)]⟩
            (GccExpr.varDecl 2 Ty.scalar) = some 9)) ∧
    (alookup (Shape.dict ⟨[(GccExpr.varDecl 1 Ty.scalar, 0), (GccExpr.varDecl 2 Ty.scalar, 0)]⟩)
        (GccExpr.varDecl 1 Ty.scalar) = none →
      ∃ m2 sh2, Shape.set_state ⟨[7]⟩ ⟨[(GccExpr.varDecl 1 Ty.scalar, 0), (GccExpr.varDecl 2 Ty.scalar, 0)]⟩
          (GccExpr.varDecl 1 Ty.scalar) 9 = some (m2, sh2) ∧
        Shape.get_state m2 0 sh2 (GccExpr.varDecl 1 Ty.scalar) = some 9 ∧
        (GccExpr.varDecl 2 Ty.scalar ≠ GccExpr.varDecl 1 Ty.scalar →
          Shape.get_state m2 0 sh2 (GccExpr.varDecl 2 Ty.scalar) =
            Shape.get_state ⟨[7]⟩ 0 ⟨[(GccExpr.varDecl 1 Ty.scalar, 0), (GccExpr.varDecl 2 Ty.scalar, 0)]⟩
              (GccExpr.varDecl 2 Ty.scalar))) :=
  set_state_through_aliases ⟨[7]⟩ 0 9
    ⟨[(GccExpr.varDecl 1 Ty.scalar, 0), (GccExpr.varDecl 2 Ty.scalar, 0)]⟩
    (GccExpr.varDecl 1 Ty.scalar) (GccExpr.varDecl 2 Ty.scalar)
    (by decide) (by decide) (by decide)

/-- C6: on an intraprocedural edge whose statement is neither a handled
assignment (rhs a `VarDecl`, or a `ComponentRef` whose target has state) nor
a phi, when no pattern rule fires the solver emits the neutral successor —
the source shape itself, with no match and no shape-change — and never
aborts. -/
theorem neutral_fallthrough (d : SmState) (m : Mem) (srcshape : Shape)
    (stmt : Option Stmt) (splitPhiRhs : Option GccExpr)
    (hassign : ∀ lhs rhs0, stmt = some (Stmt.gimpleAssign lhs rhs0) →
      exprcodeIsVarDecl rhs0 = false ∧
      ∀ t f, rhs0 = GccExpr.componentRef t f → srcshape.var_has_state t = false)
    (hphi : ∀ lhs, stmt ≠ some (Stmt.gimplePhi lhs)) :
    process_edge d m srcshape stmt InnerEdgeKind.intra splitPhiRhs false =
      TransferResult.emitEdge m srcshape none := by
  cases stmt with
  | none => rfl
  | some s =>
      cases s with
      | gimpleAssign lhs rhs0 =>
          obtain ⟨hvd, hcr⟩ := hassign lhs rhs0 rfl
          cases rhs0 with
          | varDecl id ty => simp [exprcodeIsVarDecl] at hvd
          | componentRef t f =>
              have := hcr t f rfl
              simp [process_edge, exprcodeIsVarDecl, exprcodeIsComponentRef, this]
          | parmDecl id ty => simp [process_edge, exprcodeIsVarDecl, exprcodeIsComponentRef]
          | ssaName i p t => simp [process_edge, exprcodeIsVarDecl, exprcodeIsComponentRef]
          | otherTree id => simp [process_edge, exprcodeIsVarDecl, exprcodeIsComponentRef]
      | gimplePhi lhs => exact absurd rfl (hphi lhs)
      | gimpleCall fa args lhs => rfl
      | gimpleReturn rv => rfl
      | otherStmt id => rfl

/-- Witness for C6 at a concrete unrecognised statement. -/
theorem neutral_fallthrough_witness :
    process_edge 0 ⟨[7]⟩ ⟨[(GccExpr.varDecl 1 Ty.scalar, 0)]⟩
      (some (Stmt.otherStmt 5)) InnerEdgeKind.intra none false =
      TransferResult.emitEdge ⟨[7]⟩ ⟨[(GccExpr.varDecl 1 Ty.scalar, 0)]⟩ none :=
  neutral_fallthrough 0 ⟨[7]⟩ ⟨[(GccExpr.varDecl 1 Ty.scalar, 0)]⟩
    (some (Stmt.otherStmt 5)) none (by intro lhs rhs0 h; cases h)
    (by intro lhs h; cases h)

theorem findSome?_isSome_iff {α β : Type} {f : α → Option β} {l : List α} :
    (List.findSome? f l).isSome = true ↔ ∃ a ∈ l, (f a).isSome = true := by
  induction l with
  | nil => simp [List.findSome?]
  | cons a rest ih =>
      cases hf : f a with
      | some b => simp [List.findSome?_cons, hf]
      | none => simp [List.findSome?_cons, hf, ih]

theorem mem_collectReachable {clauses : List Clause} {st : SmState} :
    st ∈ collectReachable clauses ↔
      ∃ scd, Clause.stateClause scd ∈ clauses ∧
        ∃ pr ∈ scd.patternrulelist, ∃ o ∈ pr.outcomes, st ∈ o.reachable := by
  unfold collectReachable
  rw [List.mem_flatMap]
  constructor
  · rintro ⟨c, hc, hst⟩
    cases c with
    | stateClause scd =>
        simp only [List.mem_flatMap] at hst
        obtain ⟨pr, hpr, hst⟩ := hst
        obtain ⟨o, ho, hst⟩ := hst
        exact ⟨scd, hc, pr, hpr, o, ho, hst⟩
    | decl n h => simp at hst
    | namedPattern n => simp at hst
    | pythonFragment i => simp at hst
  · rintro ⟨scd, hc, pr, hpr, o, ho, hst⟩
    exact ⟨Clause.stateClause scd, hc,
      List.mem_flatMap.mpr ⟨pr, hpr, List.mem_flatMap.mpr ⟨o, ho, hst⟩⟩⟩

/-- C5: building the rule `Context` raises the unreachable-state error — so
the engine refuses to run — exactly when some `StateClause` guard lists a
state outside the set consisting of the default state (the first declared
one) plus every state named in any rule outcome. -/
theorem context_init_unreachable (s0 : SmState) (rest : List SmState)
    (clauses : List Clause) :
    (∃ st, context_init (s0 :: rest) clauses =
        Except.error (CtxtError.unreachableState st)) ↔
      ∃ scd, Clause.stateClause scd ∈ clauses ∧ ∃ st ∈ scd.statelist,
        st ≠ s0 ∧
        ¬ ∃ scd2, Clause.stateClause scd2 ∈ clauses ∧
            ∃ pr ∈ scd2.patternrulelist, ∃ o ∈ pr.outcomes, st ∈ o.reachable := by
  have hmain : (∃ st, context_init (s0 :: rest) clauses =
      Except.error (CtxtError.unreachableState st)) ↔
      (List.findSome? (fun c =>
        match c with
        | Clause.stateClause sc =>
            sc.statelist.find? (fun st => !(decide (st ∈ s0 :: collectReachable clauses)))
        | _ => none) clauses).isSome = true := by
    have hred : context_init (s0 :: rest) clauses =
        (match List.findSome? (fun c =>
          match c with
          | Clause.stateClause sc =>
              sc.statelist.find? (fun st => !(decide (st ∈ s0 :: collectReachable clauses)))
          | _ => none) clauses with
        | some st => Except.error (CtxtError.unreachableState st)
        | none => Except.ok ()) := rfl
    rw [hred]
    cases hfs : List.findSome? (fun c =>
        match c with
        | Clause.stateClause sc =>
            sc.statelist.find? (fun st => !(decide (st ∈ s0 :: collectReachable clauses)))
        | _ => none) clauses with
    | some st0 => simp
    | none => simp
  rw [hmain, findSome?_isSome_iff]
  constructor
  · rintro ⟨c, hc, hsome⟩
    cases c with
    | stateClause scd =>
        simp only [List.find?_isSome] at hsome
        obtain ⟨st, hst, hp⟩ := hsome
        simp only [Bool.not_eq_eq_eq_not, Bool.not_true, decide_eq_false_iff_not,
          List.mem_cons, not_or] at hp
        refine ⟨scd, hc, st, hst, hp.1, ?_⟩
        rw [← mem_collectReachable]
        exact hp.2
    | decl n h => simp at hsome
    | namedPattern n => simp at hsome
    | pythonFragment i => simp at hsome
  · rintro ⟨scd, hc, st, hst, hne, hnr⟩
    refine ⟨Clause.stateClause scd, hc, ?_⟩
    simp only [List.find?_isSome]
    refine ⟨st, hst, ?_⟩
    have : st ∉ collectReachable clauses := by
      rw [mem_collectReachable]
      exact hnr
    simp [hne, this]

theorem mem_entriesOf {m : Mem} {d : SmState} {sh : Shape} {v : GccExpr} {s : SmState}
    (hnd : (sh.dict.map Prod.fst).Nodup) :
    (v, s) ∈ entriesOf m d sh ↔
      (v ∈ sh.dict.map Prod.fst ∧ stateAtKey m d sh v = s) := by
  constructor
  · intro h
    obtain ⟨p, hp, he⟩ := List.mem_map.mp h
    obtain ⟨h1, h2⟩ := Prod.mk.injEq _ _ _ _ ▸ he
    refine ⟨h1 ▸ List.mem_map.mpr ⟨p, hp, rfl⟩, ?_⟩
    have : alookup sh.dict v = some p.2 :=
      alookup_eq_some_of_mem_of_nodup hnd (by rw [← h1]; exact hp)
    simp [stateAtKey, this, h2]
  · rintro ⟨hv, hs⟩
    obtain ⟨p, hp, he⟩ := List.mem_map.mp hv
    have hl : alookup sh.dict v = some p.2 :=
      alookup_eq_some_of_mem_of_nodup hnd (by rw [← he]; exact hp)
    refine List.mem_map.mpr ⟨p, hp, ?_⟩
    simp only [stateAtKey, hl] at hs
    rw [he, hs]

theorem hashv_eq_foldl_entries (m : Mem) (d : SmState) (hV : GccExpr → Nat)
    (hS : SmState → Nat) (sh : Shape) :
    Shape.hashv m d hV hS sh =
      (entriesOf m d sh).foldl (fun r q => (r ^^^ hV q.1) ^^^ hS q.2) 0 := by
  unfold Shape.hashv entriesOf
  rw [List.foldl_map]

/-- C3: Python `Shape` equality implies hash equality, and that equality is
structural — it holds exactly when the two dicts have the same variable keys
with, at each key, cells holding equal state values, independently of which
variables share a cell. -/
theorem shape_eq_structural (m : Mem) (d : SmState) (a b : Shape)
    (ha : (a.dict.map Prod.fst).Nodup) (hb : (b.dict.map Prod.fst).Nodup)
    (hV : GccExpr → Nat) (hS : SmState → Nat) :
    (Shape.beq m d a b = true ↔
      ((∀ v, v ∈ a.dict.map Prod.fst ↔ v ∈ b.dict.map Prod.fst) ∧
       (∀ v ∈ a.dict.map Prod.fst, stateAtKey m d a v = stateAtKey m d b v))) ∧
    (Shape.beq m d a b = true →
      Shape.hashv m d hV hS a = Shape.hashv m d hV hS b) := by
  have hiff : Shape.beq m d a b = true ↔
      ((∀ v, v ∈ a.dict.map Prod.fst ↔ v ∈ b.dict.map Prod.fst) ∧
       (∀ v ∈ a.dict.map Prod.fst, stateAtKey m d a v = stateAtKey m d b v)) := by
    constructor
    · intro h
      unfold Shape.beq at h
      rw [Bool.and_eq_true] at h
      obtain ⟨hlen, hall⟩ := h
      have hlen2 : a.dict.length = b.dict.length := by simpa using hlen
      rw [List.all_eq_true] at hall
      have hsub : a.dict.map Prod.fst ⊆ b.dict.map Prod.fst := by
        intro v hv
        obtain ⟨p, hp, he⟩ := List.mem_map.mp hv
        have := hall p hp
        cases hlb : alookup b.dict p.1 with
        | none => rw [hlb] at this; simp at this
        | some c2 => exact he ▸ mem_keys_of_alookup hlb
      have hperm : (a.dict.map Prod.fst).Perm (b.dict.map Prod.fst) :=
        (List.subperm_of_subset ha hsub).perm_of_length_le (by simp [hlen2])
      refine ⟨fun v => hperm.mem_iff, ?_⟩
      intro v hv
      obtain ⟨p, hp, he⟩ := List.mem_map.mp hv
      have hla : alookup a.dict v = some p.2 :=
        alookup_eq_some_of_mem_of_nodup ha (by rw [← he]; exact hp)
      have := hall p hp
      cases hlb : alookup b.dict p.1 with
      | none => rw [hlb] at this; simp at this
      | some c2 =>
          rw [hlb] at this
          simp only [beq_iff_eq] at this
          rw [he] at hlb
          simp [stateAtKey, hla, hlb, this]
    · rintro ⟨hkeys, hstates⟩
      have hperm : (a.dict.map Prod.fst).Perm (b.dict.map Prod.fst) :=
        (List.perm_ext_iff_of_nodup ha hb).mpr hkeys
      have hlen2 : a.dict.length = b.dict.length := by
        have := hperm.length_eq
        simpa using this
      unfold Shape.beq
      rw [Bool.and_eq_true]
      refine ⟨by simpa using hlen2, ?_⟩
      rw [List.all_eq_true]
      intro p hp
      have hka : p.1 ∈ a.dict.map Prod.fst := List.mem_map.mpr ⟨p, hp, rfl⟩
      have hla : alookup a.dict p.1 = some p.2 :=
        alookup_eq_some_of_mem_of_nodup ha hp
      have hkb : p.1 ∈ b.dict.map Prod.fst := (hkeys p.1).mp hka
      have hlbs := alookup_isSome_of_mem_keys hkb
      cases hlb : alookup b.dict p.1 with
      | none => rw [hlb] at hlbs; simp at hlbs
      | some c2 =>
          have := hstates p.1 hka
          simp only [stateAtKey, hla, hlb] at this
          simp [hlb, this]
  refine ⟨hiff, fun h => ?_⟩
  obtain ⟨hkeys, hstates⟩ := hiff.mp h
  have hmapfst_a : (entriesOf m d a).map Prod.fst = a.dict.map Prod.fst := by
    simp [entriesOf, List.map_map, Function.comp]
  have hmapfst_b : (entriesOf m d b).map Prod.fst = b.dict.map Prod.fst := by
    simp [entriesOf, List.map_map, Function.comp]
  have hnda : (entriesOf m d a).Nodup := List.Nodup.of_map Prod.fst (hmapfst_a ▸ ha)
  have hndb : (entriesOf m d b).Nodup := List.Nodup.of_map Prod.fst (hmapfst_b ▸ hb)
  have hperm : (entriesOf m d a).Perm (entriesOf m d b) := by
    rw [List.perm_ext_iff_of_nodup hnda hndb]
    rintro ⟨v, s⟩
    rw [mem_entriesOf ha, mem_entriesOf hb]
    constructor
    · rintro ⟨hv, hs⟩
      exact ⟨(hkeys v).mp hv, by rw [← hstates v hv, hs]⟩
    · rintro ⟨hv, hs⟩
      have hva : v ∈ a.dict.map Prod.fst := (hkeys v).mpr hv
      exact ⟨hva, by rw [hstates v hva, hs]⟩
  letI : RightCommutative (fun (r : Nat) (q : GccExpr × SmState) => (r ^^^ hV q.1) ^^^ hS q.2) := by
    constructor
    intro r q1 q2
    have hlc : ∀ x y z : Nat, x ^^^ (y ^^^ z) = y ^^^ (x ^^^ z) := fun x y z => by
      rw [← Nat.xor_assoc, Nat.xor_comm x y, Nat.xor_assoc]
    simp only [Nat.xor_assoc]
    simp [Nat.xor_comm, hlc]
  rw [hashv_eq_foldl_entries, hashv_eq_foldl_entries]
  exact hperm.foldl_eq 0

/-- Witness for C3: two shapes with identical `(variable, state)` maps but
different aliasing (in the first, both vars share one cell) are equal and
hash equal. -/
theorem shape_eq_structural_witness :
    (Shape.beq ⟨[3, 3]⟩ 0 ⟨[(GccExpr.varDecl 1 Ty.scalar, 0), (GccExpr.varDecl 2 Ty.scalar, 0)]⟩
        ⟨[(GccExpr.varDecl 1 Ty.scalar, 0), (GccExpr.varDecl 2 Ty.scalar, 1)]⟩ = true ↔
      ((∀ v, v ∈ (Shape.dict ⟨[(GccExpr.varDecl 1 Ty.scalar, 0), (GccExpr.varDecl 2 Ty.scalar, 0)]⟩).map Prod.fst ↔
            v ∈ (Shape.dict ⟨[(GccExpr.varDecl 1 Ty.scalar, 0), (GccExpr.varDecl 2 Ty.scalar, 1)]⟩).map Prod.fst) ∧
       (∀ v ∈ (Shape.dict ⟨[(GccExpr.varDecl 1 Ty.scalar, 0), (GccExpr.varDecl 2 Ty.scalar, 0)]⟩).map Prod.fst,
          stateAtKey ⟨[3, 3]⟩ 0 ⟨[(GccExpr.varDecl 1 Ty.scalar, 0), (GccExpr.varDecl 2 Ty.scalar, 0)]⟩ v =
            stateAtKey ⟨[3, 3]⟩ 0 ⟨[(GccExpr.varDecl 1 Ty.scalar, 0), (GccExpr.varDecl 2 Ty.scalar, 1)]⟩ v))) ∧
    (Shape.beq ⟨[3, 3]⟩ 0 ⟨[(GccExpr.varDecl 1 Ty.scalar, 0), (GccExpr.varDecl 2 Ty.scalar, 0)]⟩
        ⟨[(GccExpr.varDecl 1 Ty.scalar, 0), (GccExpr.varDecl 2 Ty.scalar, 1)]⟩ = true →
      Shape.hashv ⟨[3, 3]⟩ 0 GccExpr.enc id ⟨[(GccExpr.varDecl 1 Ty.scalar, 0), (GccExpr.varDecl 2 Ty.scalar, 0)]⟩ =
        Shape.hashv ⟨[3, 3]⟩ 0 GccExpr.enc id ⟨[(GccExpr.varDecl 1 Ty.scalar, 0), (GccExpr.varDecl 2 Ty.scalar, 1)]⟩) :=
  shape_eq_structural ⟨[3, 3]⟩ 0
    ⟨[(GccExpr.varDecl 1 Ty.scalar, 0), (GccExpr.varDecl 2 Ty.scalar, 0)]⟩
    ⟨[(GccExpr.varDecl 1 Ty.scalar, 0), (GccExpr.varDecl 2 Ty.scalar, 1)]⟩
    (by decide) (by decide) GccExpr.enc id

/-- The interning invariant of the exploded graph: the node table holds one
entry per `(innernode, shape)` key, every interned key belongs to the key
universe `U`, and the pending worklist is a duplicate-free sub-collection of
the interned keys. -/
def WLInv {κ : Type} (U : List κ) (st : WorkState κ) : Prop :=
  st.nodedict.Nodup ∧ st.worklist.Nodup ∧ st.nodedict ⊆ U ∧
    st.worklist ⊆ st.nodedict

instance {κ : Type} [DecidableEq κ] (U : List κ) (st : WorkState κ) :
    Decidable (WLInv U st) := by
  unfold WLInv; infer_instance

theorem lazily_add_node_spec {κ : Type} [DecidableEq κ] {U : List κ}
    (st : WorkState κ) (k : κ) (hU : k ∈ U) (hinv : WLInv U st) :
    WLInv U (lazily_add_node st k) ∧
      (lazily_add_node st k).nodedict.length + st.worklist.length =
        st.nodedict.length + (lazily_add_node st k).worklist.length := by
  obtain ⟨hnd, hwl, hsub, hws⟩ := hinv
  unfold lazily_add_node
  by_cases hk : k ∈ st.nodedict
  · simp only [if_pos hk]
    exact ⟨⟨hnd, hwl, hsub, hws⟩, by trivial⟩
  · simp only [if_neg hk]
    have hkw : k ∉ st.worklist := fun hmem => hk (hws hmem)
    refine ⟨⟨?_, ?_, ?_, ?_⟩, by simp only [List.length_append, List.length_singleton]; omega⟩
    · rw [List.nodup_append]
      exact ⟨hnd, List.nodup_singleton k, by
        intro a hma hma2
        simp only [List.mem_singleton] at hma2
        exact hk (hma2 ▸ hma)⟩
    · rw [List.nodup_append]
      exact ⟨hwl, List.nodup_singleton k, by
        intro a hma hma2
        simp only [List.mem_singleton] at hma2
        exact hkw (hma2 ▸ hma)⟩
    · intro a hma
      rcases List.mem_append.mp hma with h | h
      · exact hsub h
      · simp only [List.mem_singleton] at h
        exact h ▸ hU
    · intro a hma
      rcases List.mem_append.mp hma with h | h
      · exact List.mem_append.mpr (Or.inl (hws h))
      · exact List.mem_append.mpr (Or.inr h)

theorem foldl_lazily_add_spec {κ : Type} [DecidableEq κ] {U : List κ} :
    ∀ (ks : List κ) (st : WorkState κ), (∀ k ∈ ks, k ∈ U) → WLInv U st →
      WLInv U (ks.foldl lazily_add_node st) ∧
        (ks.foldl lazily_add_node st).nodedict.length + st.worklist.length =
          st.nodedict.length + (ks.foldl lazily_add_node st).worklist.length := by
  intro ks
  induction ks with
  | nil => intro st _ hinv; exact ⟨hinv, rfl⟩
  | cons k rest ih =>
      intro st hks hinv
      have h1 := lazily_add_node_spec st k (hks k (List.mem_cons_self _ _)) hinv
      have h2 := ih (lazily_add_node st k)
        (fun k2 hk2 => hks k2 (List.mem_cons_of_mem _ hk2)) h1.1
      refine ⟨h2.1, ?_⟩
      simp only [List.foldl_cons] at h2 ⊢
      omega

theorem worklist_step_spec {κ : Type} [DecidableEq κ] {U : List κ}
    (succs : κ → List κ) (hsuccs : ∀ k, ∀ k2 ∈ succs k, k2 ∈ U)
    (st : WorkState κ) (hinv : WLInv U st) (hne : st.worklist ≠ []) :
    WLInv U (worklist_step succs st) ∧
      (U.length - (worklist_step succs st).nodedict.length) +
          (worklist_step succs st).worklist.length + 1 ≤
        (U.length - st.nodedict.length) + st.worklist.length := by
  obtain ⟨hnd, hwl, hsub, hws⟩ := hinv
  have hres : worklist_step succs st =
      (succs (st.worklist.getLast hne)).foldl lazily_add_node
        ⟨st.nodedict, st.worklist.dropLast⟩ := by
    unfold worklist_step
    rw [List.getLast?_eq_getLast _ hne]
  have hst2 : WLInv U (⟨st.nodedict, st.worklist.dropLast⟩ : WorkState κ) :=
    ⟨hnd, (List.dropLast_sublist _).nodup hwl, hsub,
      fun a ha => hws ((List.dropLast_sublist _).subset ha)⟩
  have h2 := foldl_lazily_add_spec (succs (st.worklist.getLast hne))
    ⟨st.nodedict, st.worklist.dropLast⟩
    (fun k2 hk2 => hsuccs _ k2 hk2) hst2
  rw [hres]
  refine ⟨h2.1, ?_⟩
  have hlen : st.worklist.dropLast.length = st.worklist.length - 1 :=
    List.length_dropLast _
  have hnodedict_le :
      ((succs (st.worklist.getLast hne)).foldl lazily_add_node
        (⟨st.nodedict, st.worklist.dropLast⟩ : WorkState κ)).nodedict.length ≤
        U.length :=
    (List.subperm_of_subset h2.1.1 h2.1.2.2.1).length_le
  have hwlen : 1 ≤ st.worklist.length := by
    cases hw : st.worklist with
    | nil => exact absurd hw hne
    | cons a l => simp
  have heq := h2.2
  dsimp only at heq
  omega

theorem worklist_run_of_empty {κ : Type} [DecidableEq κ] (succs : κ → List κ) :
    ∀ (n : Nat) (st : WorkState κ), st.worklist = [] →
      worklist_run succs n st = st := by
  intro n
  induction n with
  | zero => intro st _; rfl
  | succ n ih =>
      intro st hw
      have hstep : worklist_step succs st = st := by
        unfold worklist_step
        rw [hw]
        rfl
      show worklist_run succs n (worklist_step succs st) = st
      rw [hstep]
      exact ih st hw

/-- C2: the worklist fixpoint of `make_exploded_graph` terminates:
`lazily_add_node` interns at most one exploded node per key (the node table
stays duplicate-free), and as long as every `(inner node, Shape)` key the
transfer functions produce lies in a finite universe `U` — the structurally
distinct shapes at each inner node being finitely many — the worklist is
empty after at most `(|U| - interned) + pending` iterations. -/
theorem worklist_terminates {κ : Type} [DecidableEq κ] (succs : κ → List κ)
    (U : List κ) (hsuccs : ∀ k, ∀ k2 ∈ succs k, k2 ∈ U)
    (st : WorkState κ) (hinv : WLInv U st) (n : Nat)
    (hn : (U.length - st.nodedict.length) + st.worklist.length ≤ n) :
    (worklist_run succs n st).worklist = [] ∧
      (worklist_run succs n st).nodedict.Nodup := by
  induction n generalizing st with
  | zero =>
      have hwl : st.worklist = [] := by
        have : st.worklist.length = 0 := by omega
        exact List.length_eq_zero.mp this
      rw [worklist_run_of_empty succs 0 st hwl]
      exact ⟨hwl, hinv.1⟩
  | succ n ih =>
      by_cases hw : st.worklist = []
      · rw [worklist_run_of_empty succs (n + 1) st hw]
        exact ⟨hw, hinv.1⟩
      · have hstep := worklist_step_spec succs hsuccs st hinv hw
        show (worklist_run succs n (worklist_step succs st)).worklist = [] ∧
          (worklist_run succs n (worklist_step succs st)).nodedict.Nodup
        exact ih (worklist_step succs st) hstep.1 (by omega)

/-- Witness for C2: a two-key universe of `(inner node, Shape)` pairs. -/
theorem worklist_terminates_witness :
    (worklist_run (fun _ => [((1 : Nat), (⟨[]⟩ : Shape))]) 3
        ⟨[(0, ⟨[]⟩)], [(0, ⟨[]⟩)]⟩).worklist = [] ∧
      (worklist_run (fun _ => [((1 : Nat), (⟨[]⟩ : Shape))]) 3
        ⟨[(0, ⟨[]⟩)], [(0, ⟨[]⟩)]⟩).nodedict.Nodup :=
  worklist_terminates (fun _ => [((1 : Nat), (⟨[]⟩ : Shape))])
    [(0, ⟨[]⟩), (1, ⟨[]⟩)]
    (by
      intro k k2 hk2
      simp only [List.mem_singleton] at hk2
      subst hk2
      decide)
    ⟨[(0, ⟨[]⟩)], [(0, ⟨[]⟩)]⟩ (by decide) 3 (by decide)

/-- Invariant of `copyCells`' accumulator: keys are distinct source cells,
every mapped cell is a fresh cell of the grown memory holding the source
cell's state, and distinct entries map to distinct fresh cells. -/
def CopyInv (m0 m : Mem) (d : SmState) (acc : List (Nat × Nat)) : Prop :=
  (acc.map Prod.fst).Nodup ∧
  (∀ p ∈ acc, p.1 < m0.cells.length ∧ m0.cells.length ≤ p.2 ∧
     p.2 < m.cells.length ∧ m.cells.getD p.2 d = m0.cells.getD p.1 d) ∧
  (∀ p ∈ acc, ∀ q ∈ acc, p ≠ q → p.2 ≠ q.2)

theorem copyCells_spec (d : SmState) (m0 : Mem) :
    ∀ (vals : List Nat) (m : Mem) (acc : List (Nat × Nat)),
      (∃ ext, m.cells = m0.cells ++ ext) →
      (∀ c ∈ vals, c < m0.cells.length) →
      CopyInv m0 m d acc →
      (∃ ext2, (copyCells d m vals acc).1.cells = m.cells ++ ext2) ∧
      CopyInv m0 (copyCells d m vals acc).1 d (copyCells d m vals acc).2 ∧
      (∀ c, c ∈ vals ∨ (alookup acc c).isSome = true →
        (alookup (copyCells d m vals acc).2 c).isSome = true) := by
  intro vals
  induction vals with
  | nil =>
      intro m acc hpre hvals hinv
      refine ⟨⟨[], by simp [copyCells]⟩, by simpa [copyCells] using hinv, ?_⟩
      intro c hc
      rcases hc with hc | hc
      · simp at hc
      · simpa [copyCells] using hc
  | cons c rest ih =>
      intro m acc hpre hvals hinv
      obtain ⟨ext, hext⟩ := hpre
      obtain ⟨hknd, hbounds, hdist⟩ := hinv
      have hc0 : c < m0.cells.length := hvals c (List.mem_cons_self _ _)
      have hm0le : m0.cells.length ≤ m.cells.length := by
        rw [hext]; simp
      have hstate : m.stateOf d c = m0.cells.getD c d := by
        unfold Mem.stateOf
        rw [hext, List.getD_append _ _ _ _ hc0]
      have hstep : copyCells d m (c :: rest) acc =
          copyCells d ⟨m.cells ++ [m.stateOf d c]⟩ rest
            (aset acc c m.cells.length) := by
        simp only [copyCells, Mem.alloc]
      rw [hstep]
      have hpre2 : ∃ ext2, (⟨m.cells ++ [m.stateOf d c]⟩ : Mem).cells =
          m0.cells ++ ext2 := ⟨ext ++ [m.stateOf d c], by rw [hext, List.append_assoc]⟩
      have hinv2 : CopyInv m0 ⟨m.cells ++ [m.stateOf d c]⟩ d
          (aset acc c m.cells.length) := by
        refine ⟨keys_aset_nodup hknd, ?_, ?_⟩
        · intro p hp
          rcases mem_aset hp with hp | hp
          · subst hp
            refine ⟨hc0, hm0le, by simp, ?_⟩
            show (m.cells ++ [m.stateOf d c]).getD m.cells.length d = _
            rw [List.getD_eq_getElem?_getD, List.getElem?_concat_length]
            simpa using hstate
          · obtain ⟨h1, h2, h3, h4⟩ := hbounds p hp
            refine ⟨h1, h2, by simp; omega, ?_⟩
            show (m.cells ++ [m.stateOf d c]).getD p.2 d = _
            rw [List.getD_append _ _ _ _ h3]
            exact h4
        · intro p hp q hq hpq
          rcases mem_aset hp with hp | hp <;> rcases mem_aset hq with hq | hq
          · exact absurd (hp.trans hq.symm) hpq
          · subst hp
            have := (hbounds q hq).2.2.1
            omega
          · subst hq
            have := (hbounds p hp).2.2.1
            simp only []
            omega
          · exact hdist p hp q hq hpq
      have hrest : ∀ c2 ∈ rest, c2 < m0.cells.length :=
        fun c2 hc2 => hvals c2 (List.mem_cons_of_mem _ hc2)
      obtain ⟨⟨ext2, hext2⟩, hinv3, htot⟩ :=
        ih ⟨m.cells ++ [m.stateOf d c]⟩ (aset acc c m.cells.length) hpre2 hrest hinv2
      refine ⟨⟨[m.stateOf d c] ++ ext2, by rw [hext2]; simp⟩, hinv3, ?_⟩
      intro c2 hc2
      rcases hc2 with hc2 | hc2
      · rcases List.mem_cons.mp hc2 with hc2 | hc2
        · subst hc2
          exact htot c2 (Or.inr (by rw [alookup_aset_self]; rfl))
        · exact htot c2 (Or.inl hc2)
      · by_cases hcc : c2 = c
        · subst hcc
          exact htot c2 (Or.inr (by rw [alookup_aset_self]; rfl))
        · exact htot c2 (Or.inr (by rwa [alookup_aset_ne hcc]))

/-- The `old cell ↦ new cell` function pass 2 of `_copy` reads off the
`shapevars` mapping (the `getD 0` default is never reached: pass 1 covers
every source cell). -/
def cloneCellMap (m : Mem) (d : SmState) (sh : Shape) : Nat → Nat :=
  fun c => (alookup (copyCells d m (sh.dict.map (fun p => p.2)) []).2 c).getD 0

/-- C4: `Shape._copy` yields a clone with exactly the same variables bound
to cells holding the same state values, aliasing the same new cell iff the
originals aliased the same cell, and every clone cell a fresh `StateVar`
distinct from all source cells. -/
theorem clone_preserves_aliasing (m : Mem) (d : SmState) (sh : Shape)
    (hwf : Shape.WF m sh) :
    ((Shape.copy m d sh).2.1.dict.map Prod.fst = sh.dict.map Prod.fst) ∧
    (∀ v c, alookup sh.dict v = some c →
      ∃ c2, alookup (Shape.copy m d sh).2.1.dict v = some c2 ∧
        (Shape.copy m d sh).1.stateOf d c2 = m.stateOf d c) ∧
    (∀ v w cv cw, alookup sh.dict v = some cv → alookup sh.dict w = some cw →
      (alookup (Shape.copy m d sh).2.1.dict v =
          alookup (Shape.copy m d sh).2.1.dict w ↔ cv = cw)) ∧
    (∀ v c2, alookup (Shape.copy m d sh).2.1.dict v = some c2 →
      c2 ∉ sh.dict.map (fun p => p.2)) := by
  have hvals : ∀ c ∈ sh.dict.map (fun p => p.2), c < m.cells.length := by
    intro c hc
    obtain ⟨p, hp, he⟩ := List.mem_map.mp hc
    exact he ▸ hwf p hp
  obtain ⟨⟨ext2, hext⟩, ⟨hknd, hbounds, hdist⟩, htot⟩ :=
    copyCells_spec d m (sh.dict.map (fun p => p.2)) m []
      ⟨[], by simp⟩ hvals ⟨by simp, by simp, by simp⟩
  have hcopy1 : (Shape.copy m d sh).1 =
      (copyCells d m (sh.dict.map (fun p => p.2)) []).1 := rfl
  have hcopy2 : (Shape.copy m d sh).2.1.dict =
      sh.dict.map (fun p => (p.1, cloneCellMap m d sh p.2)) := rfl
  have hcopy3 : (Shape.copy m d sh).2.2 =
      (copyCells d m (sh.dict.map (fun p => p.2)) []).2 := rfl
  have hfind : ∀ {c : Nat}, c ∈ sh.dict.map (fun p => p.2) →
      ∃ n, alookup (copyCells d m (sh.dict.map (fun p => p.2)) []).2 c = some n := by
    intro c hc
    have := htot c (Or.inl hc)
    exact Option.isSome_iff_exists.mp this
  refine ⟨?_, ?_, ?_, ?_⟩
  · rw [hcopy2]
    simp [List.map_map, Function.comp]
  · intro v c hvc
    have hcmem : c ∈ sh.dict.map (fun p => p.2) :=
      List.mem_map.mpr ⟨(v, c), alookup_mem hvc, rfl⟩
    obtain ⟨n, hn⟩ := hfind hcmem
    refine ⟨n, ?_, ?_⟩
    · rw [hcopy2, alookup_map_value (cloneCellMap m d sh), hvc]
      simp [cloneCellMap, hn]
    · rw [hcopy1]
      have := (hbounds (c, n) (alookup_mem hn)).2.2.2
      unfold Mem.stateOf
      simpa using this
  · intro v w cv cw hv hw
    have hcv : cv ∈ sh.dict.map (fun p => p.2) :=
      List.mem_map.mpr ⟨(v, cv), alookup_mem hv, rfl⟩
    have hcw : cw ∈ sh.dict.map (fun p => p.2) :=
      List.mem_map.mpr ⟨(w, cw), alookup_mem hw, rfl⟩
    obtain ⟨nv, hnv⟩ := hfind hcv
    obtain ⟨nw, hnw⟩ := hfind hcw
    rw [hcopy2, alookup_map_value (cloneCellMap m d sh),
      alookup_map_value (cloneCellMap m d sh), hv, hw]
    simp only [cloneCellMap, Option.map_some', Option.some.injEq, hnv, hnw,
      Option.getD_some]
    constructor
    · intro hn
      by_contra hne
      have hpairs : ((cv, nv) : Nat × Nat) ≠ (cw, nw) := by
        intro he
        exact hne (congrArg Prod.fst he)
      exact hdist (cv, nv) (alookup_mem hnv) (cw, nw) (alookup_mem hnw) hpairs (by simpa using hn)
    · intro he
      subst he
      rw [hnv] at hnw
      simpa using hnw
  · intro v c2 hl
    rw [hcopy2, alookup_map_value (cloneCellMap m d sh)] at hl
    cases hv : alookup sh.dict v with
    | none => rw [hv] at hl; simp at hl
    | some c =>
        rw [hv] at hl
        simp only [Option.map_some', Option.some.injEq] at hl
        have hcmem : c ∈ sh.dict.map (fun p => p.2) :=
          List.mem_map.mpr ⟨(v, c), alookup_mem hv, rfl⟩
        obtain ⟨n, hn⟩ := hfind hcmem
        have hc2 : c2 = n := by
          rw [← hl]
          simp [cloneCellMap, hn]
        have hge := (hbounds (c, n) (alookup_mem hn)).2.1
        intro hmem
        have hlt := hvals _ hmem
        omega

/-- Witness for C4: cloning a shape in which two variables share a cell. -/
theorem clone_preserves_aliasing_witness :
    ((Shape.copy ⟨[7]⟩ 0 ⟨[(GccExpr.varDecl 1 Ty.scalar, 0), (GccExpr.varDecl 2 Ty.scalar, 0)]⟩).2.1.dict.map Prod.fst =
      (Shape.dict ⟨[(GccExpr.varDecl 1 Ty.scalar, 0), (GccExpr.varDecl 2 Ty.scalar, 0)]⟩).map Prod.fst) ∧
    (∀ v c, alookup (Shape.dict ⟨[(GccExpr.varDecl 1 Ty.scalar, 0), (GccExpr.varDecl 2 Ty.scalar, 0)]⟩) v = some c →
      ∃ c2, alookup (Shape.copy ⟨[7]⟩ 0 ⟨[(GccExpr.varDecl 1 Ty.scalar, 0), (GccExpr.varDecl 2 Ty.scalar, 0)]⟩).2.1.dict v = some c2 ∧
        (Shape.copy ⟨[7]⟩ 0 ⟨[(GccExpr.varDecl 1 Ty.scalar, 0), (GccExpr.varDecl 2 Ty.scalar, 0)]⟩).1.stateOf 0 c2 =
          Mem.stateOf ⟨[7]⟩ 0 c) ∧
    (∀ v w cv cw, alookup (Shape.dict ⟨[(GccExpr.varDecl 1 Ty.scalar, 0), (GccExpr.varDecl 2 Ty.scalar, 0)]⟩) v = some cv →
      alookup (Shape.dict ⟨[(GccExpr.varDecl 1 Ty.scalar, 0), (GccExpr.varDecl 2 Ty.scalar, 0)]⟩) w = some cw →
      (alookup (Shape.copy ⟨[7]⟩ 0 ⟨[(GccExpr.varDecl 1 Ty.scalar, 0), (GccExpr.varDecl 2 Ty.scalar, 0)]⟩).2.1.dict v =
          alookup (Shape.copy ⟨[7]⟩ 0 ⟨[(GccExpr.varDecl 1 Ty.scalar, 0), (GccExpr.varDecl 2 Ty.scalar, 0)]⟩).2.1.dict w ↔ cv = cw)) ∧
    (∀ v c2, alookup (Shape.copy ⟨[7]⟩ 0 ⟨[(GccExpr.varDecl 1 Ty.scalar, 0), (GccExpr.varDecl 2 Ty.scalar, 0)]⟩).2.1.dict v = some c2 →
      c2 ∉ (Shape.dict ⟨[(GccExpr.varDecl 1 Ty.scalar, 0), (GccExpr.varDecl 2 Ty.scalar, 0)]⟩).map (fun p => p.2)) :=
  clone_preserves_aliasing ⟨[7]⟩ 0
    ⟨[(GccExpr.varDecl 1 Ty.scalar, 0), (GccExpr.varDecl 2 Ty.scalar, 0)]⟩ (by decide)

/-- The test `iter_leaks` applies to one source value: look up its clone and
ask whether the clone is `not in` the destination values — Python list
membership through `StateVar.__eq__`, i.e. state equality. -/
def leakedB (m : Mem) (d : SmState) (sc : ShapeChange) (dstshapevars : List Nat)
    (c : Nat) : Bool :=
  match alookup sc.shapevars c with
  | some c2 => !(dstshapevars.any (fun e => m.stateOf d e == m.stateOf d c2))
  | none => false

theorem iterLeaksAux_eq (m : Mem) (d : SmState) (sc : ShapeChange)
    (dstshapevars : List Nat) :
    ∀ (vs : List Nat), (∀ c ∈ vs, (alookup sc.shapevars c).isSome = true) →
      iterLeaksAux m d sc dstshapevars vs =
        some (vs.flatMap (fun c =>
          if leakedB m d sc dstshapevars c then sc.srcshape.iter_aliases c else [])) := by
  intro vs
  induction vs with
  | nil => intro _; simp [iterLeaksAux]
  | cons c rest ih =>
      intro htot
      obtain ⟨c2, hc2⟩ := Option.isSome_iff_exists.mp
        (htot c (List.mem_cons_self _ _))
      have hrest := ih (fun c3 hc3 => htot c3 (List.mem_cons_of_mem _ hc3))
      simp only [iterLeaksAux, hc2, hrest, Option.map_some', List.flatMap_cons]
      cases hany : dstshapevars.any (fun e => m.stateOf d e == m.stateOf d c2) with
      | true => simp [leakedB, hc2, hany]
      | false => simp [leakedB, hc2, hany]

theorem insertSorted_perm {α : Type} (le : α → α → Bool) (x : α) :
    ∀ l : List α, (insertSorted le x l).Perm (x :: l) := by
  intro l
  induction l with
  | nil => exact List.Perm.refl _
  | cons y rest ih =>
      unfold insertSorted
      by_cases h : le x y = true
      · rw [if_pos h]
      · rw [if_neg h]
        exact (ih.cons y).trans (List.Perm.swap x y rest)

theorem sortList_perm {α : Type} (le : α → α → Bool) :
    ∀ l : List α, (sortList le l).Perm l := by
  intro l
  induction l with
  | nil => exact List.Perm.refl _
  | cons x rest ih =>
      unfold sortList
      exact (insertSorted_perm le x (sortList le rest)).trans (ih.cons x)

theorem count_iter_aliases (sh : Shape) (g : GccExpr) (c : Nat)
    (hnd : (sh.dict.map Prod.fst).Nodup) (hg : alookup sh.dict g = some c)
    (c3 : Nat) :
    List.count g (sh.iter_aliases c3) = if c3 = c then 1 else 0 := by
  unfold Shape.iter_aliases
  by_cases hcc : c3 = c
  · subst hcc
    have hp : decide (alookup sh.dict g = some c3) = true := by simp [hg]
    have hperm := sortList_perm (fun a b : GccExpr => a.enc ≤ b.enc)
      (sh.dict.map Prod.fst)
    have hsortnd : (sortList (fun a b : GccExpr => a.enc ≤ b.enc)
        (sh.dict.map Prod.fst)).Nodup := hnd.perm hperm.symm
    have hmem : g ∈ (sortList (fun a b : GccExpr => a.enc ≤ b.enc)
        (sh.dict.map Prod.fst)).filter
          (fun gccvar => decide (alookup sh.dict gccvar = some c3)) :=
      List.mem_filter.mpr ⟨hperm.mem_iff.mpr (mem_keys_of_alookup hg), hp⟩
    rw [if_pos rfl]
    exact List.count_eq_one_of_mem (hsortnd.filter _) hmem
  · rw [if_neg hcc]
    rw [List.count_eq_zero]
    intro hmem
    have := List.of_mem_filter hmem
    simp only [decide_eq_true_eq] at this
    rw [hg] at this
    exact hcc (by simpa using this.symm)

theorem sum_map_leak_indicator (c : Nat) (b : Nat → Bool) :
    ∀ (l : List Nat),
      (l.map (fun x => if x = c ∧ b x = true then 1 else 0)).sum =
        if b c then l.count c else 0 := by
  intro l
  induction l with
  | nil => cases hb : b c <;> simp
  | cons x rest ih =>
      by_cases hx : x = c
      · subst hx
        cases hb : b x
        · simp [List.count_cons, ih, hb]
        · simp [List.count_cons, ih, hb]
          omega
      · cases hb : b c <;> simp [List.count_cons, ih, hb, hx]

/-- C1 (amended): for a `ShapeChange`, a variable `g` of the source shape
whose cell is `c` (with clone `c2`) appears in `iter_leaks` output with
multiplicity equal to the number of aliases of `c` — once per occurrence of
`c` among the source dict values — when `c2`'s state differs from the state
of every cell in the destination map, and not at all otherwise; in
particular a cell whose clone is still referenced in the destination yields
nothing. -/
theorem iter_leaks_characterisation (m : Mem) (d : SmState) (sc : ShapeChange)
    (g : GccExpr) (c c2 : Nat)
    (hnd : (sc.srcshape.dict.map Prod.fst).Nodup)
    (htot : ∀ x ∈ sc.srcshape.dict.map (fun p => p.2),
      (alookup sc.shapevars x).isSome = true)
    (hg : alookup sc.srcshape.dict g = some c)
    (hc2 : alookup sc.shapevars c = some c2) :
    ∃ L, ShapeChange.iter_leaks m d sc = some L ∧
      ((∀ e ∈ sc.dstshape.dict.map (fun p => p.2),
          m.stateOf d e ≠ m.stateOf d c2) →
        List.count g L = (sc.srcshape.dict.map (fun p => p.2)).count c) ∧
      ((∃ e ∈ sc.dstshape.dict.map (fun p => p.2),
          m.stateOf d e = m.stateOf d c2) → g ∉ L) ∧
      (c2 ∈ sc.dstshape.dict.map (fun p => p.2) → g ∉ L) := by
  have haux := iterLeaksAux_eq m d sc (sc.dstshape.dict.map (fun p => p.2))
    (sc.srcshape.dict.map (fun p => p.2)) htot
  refine ⟨_, haux, ?_⟩
  have hcount : ∀ hb : Bool,
      leakedB m d sc (sc.dstshape.dict.map (fun p => p.2)) c = hb →
      List.count g ((sc.srcshape.dict.map (fun p => p.2)).flatMap (fun c3 =>
        if leakedB m d sc (sc.dstshape.dict.map (fun p => p.2)) c3 then
          sc.srcshape.iter_aliases c3 else [])) =
        if hb then (sc.srcshape.dict.map (fun p => p.2)).count c else 0 := by
    intro hb hhb
    rw [List.count_flatMap]
    have hterm : (List.count g ∘ fun c3 =>
        if leakedB m d sc (sc.dstshape.dict.map (fun p => p.2)) c3 then
          sc.srcshape.iter_aliases c3 else []) =
        fun c3 => if c3 = c ∧
            leakedB m d sc (sc.dstshape.dict.map (fun p => p.2)) c3 = true
          then 1 else 0 := by
      funext c3
      simp only [Function.comp]
      cases hl : leakedB m d sc (sc.dstshape.dict.map (fun p => p.2)) c3 with
      | true =>
          rw [if_pos rfl, count_iter_aliases sc.srcshape g c hnd hg c3]
          by_cases hc3 : c3 = c
          · simp [hc3]
          · simp [hc3]
      | false =>
          rw [if_neg (by simp)]
          by_cases hc3 : c3 = c
          · simp [hc3]
          · simp [hc3]
    rw [hterm, sum_map_leak_indicator c
      (leakedB m d sc (sc.dstshape.dict.map (fun p => p.2)))]
    rw [hhb]
  have hleak_any : leakedB m d sc (sc.dstshape.dict.map (fun p => p.2)) c =
      !((sc.dstshape.dict.map (fun p => p.2)).any
        (fun e => m.stateOf d e == m.stateOf d c2)) := by
    simp [leakedB, hc2]
  refine ⟨?_, ?_, ?_⟩
  · intro hall
    have hany : (sc.dstshape.dict.map (fun p => p.2)).any
        (fun e => m.stateOf d e == m.stateOf d c2) = false := by
      rw [List.any_eq_false]
      intro e he
      simp only [beq_iff_eq]
      exact hall e he
    rw [hcount true (by rw [hleak_any, hany]; rfl)]
    rfl
  · rintro ⟨e, he, hse⟩
    have hany : (sc.dstshape.dict.map (fun p => p.2)).any
        (fun e => m.stateOf d e == m.stateOf d c2) = true := by
      rw [List.any_eq_true]
      exact ⟨e, he, by simp [hse]⟩
    have h0 := hcount false (by rw [hleak_any, hany]; rfl)
    rw [if_neg Bool.false_ne_true, List.count_eq_zero] at h0
    exact h0
  · intro hmem
    have h0 := hcount false (by
      rw [hleak_any]
      have hany2 : (sc.dstshape.dict.map (fun p => p.2)).any
          (fun e => m.stateOf d e == m.stateOf d c2) = true := by
        rw [List.any_eq_true]
        exact ⟨c2, hmem, by simp⟩
      rw [hany2]
      rfl)
    rw [if_neg Bool.false_ne_true, List.count_eq_zero] at h0
    exact h0

/-- Leak example: two variables aliasing one source cell. -/
def leakVarX : GccExpr := GccExpr.varDecl 1 Ty.scalar

/-- Second alias of the same source cell. -/
def leakVarY : GccExpr := GccExpr.varDecl 2 Ty.scalar

/-- Source shape in which `x` and `y` share cell `0` (state `7`). -/
def leakSrc : Shape := ⟨[(leakVarX, 0), (leakVarY, 0)]⟩

/-- The `ShapeChange` built from `leakSrc` over a one-cell memory. -/
def leakMkC : Mem × ShapeChange := ShapeChange.mk_change ⟨[7]⟩ 0 leakSrc

/-- The same change after `purge_locals` removes both aliases from the
destination (as the return transfer does), leaking the cell. -/
def leakSC : ShapeChange :=
  leakMkC.2.purge_locals ⟨[leakVarX, leakVarY], []⟩

/-- C1 counterexample: the cell's clone has lost every alias (the
destination dict is empty), `leakVarX` is one of its source-side aliases,
yet `iter_leaks` yields it twice — once per alias of the cell — not exactly
once. -/
theorem iter_leaks_duplicates_counterexample :
    ∃ L, ShapeChange.iter_leaks leakMkC.1 0 leakSC = some L ∧
      leakSC.dstshape.dict = [] ∧
      alookup leakSC.srcshape.dict leakVarX = some 0 ∧
      List.count leakVarX L = 2 :=
  ⟨[leakVarX, leakVarY, leakVarX, leakVarY], by decide⟩

/-- Witness for the amended C1 theorem at the same concrete change. -/
theorem iter_leaks_characterisation_witness :
    ∃ L, ShapeChange.iter_leaks leakMkC.1 0 leakSC = some L ∧
      List.count leakVarX L =
        (leakSC.srcshape.dict.map (fun p => p.2)).count 0 := by
  obtain ⟨L, hL, h1, _, _⟩ := iter_leaks_characterisation leakMkC.1 0 leakSC
    leakVarX 0 2 (by decide) (by decide) (by decide) (by decide)
  exact ⟨L, hL, h1 (by decide)⟩

theorem get_state_eq_stateAtKey (m : Mem) (d : SmState) (sh : Shape)
    (v : GccExpr) (hv : v.isVarType = true) :
    Shape.get_state m d sh v = some (stateAtKey m d sh v) := by
  unfold Shape.get_state stateAtKey
  rw [if_pos hv]

/-- The note `Error.emit` produces for one edge of the witness path: emitted
only when the stateful variable's state differs across the edge AND the
source node has a location AND the edge carries a match. -/
def noteOf (m : Mem) (d : SmState) (statefulVar : GccExpr) (e : ExpEdgeR) :
    Option Event :=
  if stateAtKey m d e.srcnode.shape statefulVar ≠
      stateAtKey m d e.dstnode.shape statefulVar then
    match e.srcnode.loc, e.ematch with
    | some gccloc, some sm => some (Event.informEv gccloc sm.descr)
    | _, _ => none
  else none

theorem emitNotes_eq_filterMap (m : Mem) (d : SmState) (statefulVar : GccExpr)
    (hv : statefulVar.isVarType = true) :
    ∀ path : List ExpEdgeR,
      emitNotes m d statefulVar path =
        some (path.filterMap (noteOf m d statefulVar)) := by
  intro path
  induction path with
  | nil => simp [emitNotes]
  | cons e rest ih =>
      rw [List.filterMap_cons]
      simp only [emitNotes, get_state_eq_stateAtKey m d _ _ hv, ih,
        Option.map_some']
      by_cases hdiff : stateAtKey m d e.srcnode.shape statefulVar ≠
          stateAtKey m d e.dstnode.shape statefulVar
      · rw [if_pos hdiff]
        unfold noteOf
        rw [if_pos hdiff]
        cases hloc : e.srcnode.loc with
        | none => simp
        | some gccloc =>
            cases hm : e.ematch with
            | none => simp
            | some sm => simp
      · rw [if_neg hdiff]
        unfold noteOf
        rw [if_neg hdiff]
        simp

/-- C7 (amended): `Error.emit` emits the primary diagnostic at the error's
location, then — walking the shortest witness path — one note per edge whose
source/destination state of the matched stateful variable differ AND which
carries a match AND whose source node has a location (an edge failing the
latter two is skipped even when the state changes), and finally, when the
path is longer than one edge and the final node has a location, the primary
message again there. -/
theorem error_emit_notes (m : Mem) (d : SmState)
    (gsp : ExpNodeR → ExpNodeR → Option (List ExpEdgeR))
    (entrypoints : List ExpNodeR) (err : ErrorR) (path : List ExpEdgeR)
    (hpath : get_shortest_path_to gsp entrypoints err.expnode = some path)
    (hvar : err.ematch.statefulVar.isVarType = true) :
    ErrorR.emit m d gsp entrypoints err =
      some (Event.errorEv err.gccloc err.msg ::
        (path.filterMap (noteOf m d err.ematch.statefulVar) ++
          (if 1 < path.length then
            match path.getLast? with
            | some lastEdge =>
                match lastEdge.dstnode.loc with
                | some gccloc => [Event.informEv gccloc err.msg]
                | none => []
            | none => []
          else []))) := by
  unfold ErrorR.emit
  rw [hpath]
  dsimp only
  rw [emitNotes_eq_filterMap m d _ hvar]

/-- The stateful variable of the reporter example. -/
def repVarX : GccExpr := GccExpr.varDecl 1 Ty.scalar

/-- Witness-path source node: location `10`, `x` in cell `0` (state `1`). -/
def repSrcNode : ExpNodeR := ⟨some 10, ⟨[(repVarX, 0)]⟩⟩

/-- Witness-path destination node: location `11`, `x` in cell `1`
(state `2`). -/
def repDstNode : ExpNodeR := ⟨some 11, ⟨[(repVarX, 1)]⟩⟩

/-- An exploded edge that changes `x`'s state but carries no match (as call
and return edges do). -/
def repEdge : ExpEdgeR := ⟨repSrcNode, repDstNode, none⟩

/-- The stored error at the destination node. -/
def repErr : ErrorR := ⟨repDstNode, ⟨repVarX, "use"⟩, "msg", 99⟩

/-- The BFS collaborator: one path, consisting of `repEdge`. -/
def repGsp : ExpNodeR → ExpNodeR → Option (List ExpEdgeR) :=
  fun _ _ => some [repEdge]

/-- C7 counterexample: the shortest witness path consists of one edge whose
source and destination state for the matched stateful variable differ, yet
`emit` produces only the primary diagnostic — no note — because the edge
carries no match. -/
theorem error_emit_counterexample :
    get_shortest_path_to repGsp [repSrcNode] repErr.expnode = some [repEdge] ∧
    Shape.get_state ⟨[1, 2]⟩ 0 repEdge.srcnode.shape repErr.ematch.statefulVar ≠
      Shape.get_state ⟨[1, 2]⟩ 0 repEdge.dstnode.shape repErr.ematch.statefulVar ∧
    ErrorR.emit ⟨[1, 2]⟩ 0 repGsp [repSrcNode] repErr =
      some [Event.errorEv 11 "msg"] :=
  ⟨rfl, by decide, rfl⟩

/-- Witness for the amended C7 theorem at the same concrete graph. -/
theorem error_emit_notes_witness :
    ErrorR.emit ⟨[1, 2]⟩ 0 repGsp [repSrcNode] repErr =
      some (Event.errorEv repErr.gccloc repErr.msg ::
        ([repEdge].filterMap (noteOf ⟨[1, 2]⟩ 0 repErr.ematch.statefulVar) ++
          (if 1 < [repEdge].length then
            match [repEdge].getLast? with
            | some lastEdge =>
                match lastEdge.dstnode.loc with
                | some gccloc => [Event.informEv gccloc repErr.msg]
                | none => []
            | none => []
          else []))) :=
  error_emit_notes ⟨[1, 2]⟩ 0 repGsp [repSrcNode] repErr [repEdge] rfl (by decide)

end SmSolver
